import Mathlib

/-!
Shallow embedding of the candidate enrichment / scoring / deduplication
pipeline of `scripts/generate_outbound_lists.py`.

Python strings are modelled as Lean `String` (a wrapper around `List Char`);
`str.lower()` is modelled with `Char.toLower` (the ASCII case fold, which is
what all keyword comparisons in the script exercise), `str.strip()` with
whitespace removal at both ends, and the substring operator `in` with
`List.isInfixOf` on the character lists.  Missing/`None` values coming from
Python are modelled with `Option`.  Timestamps are modelled as integers
counting days, so that `datetime.utcnow() - timedelta(days=365)` becomes
`now - 365`; `pd.to_datetime(_, errors="coerce")` becomes an abstract parse
function `String → Option Int` (`none` = `NaT`).
-/

namespace OutboundLists

/-- Python `str.lower()` (ASCII case fold, as exercised by the script). -/
def lower (s : String) : String := String.mk (s.data.map Char.toLower)

/-- Python `str.strip()` on the underlying character list. -/
def stripChars (l : List Char) : List Char :=
  ((l.dropWhile Char.isWhitespace).reverse.dropWhile Char.isWhitespace).reverse

/-- `re.sub(p, "", u)` for an anchored literal pattern `p`: remove one
occurrence of `p` at the start of the string, if present. -/
def dropPat (p l : List Char) : List Char :=
  if p.isPrefixOf l then l.drop p.length else l

/-- `re.sub(r"^https?://", "", u)`: the anchored regex matches exactly one of
the two literals `http://` / `https://` at the start. -/
def dropScheme (l : List Char) : List Char :=
  if ("http://".data).isPrefixOf l then l.drop "http://".length
  else if ("https://".data).isPrefixOf l then l.drop "https://".length
  else l

/-- `canonical_domain` on the character list: strip, lowercase, drop the
scheme, drop one leading `www.`, then `split("/")[0].split("?")[0]` (the part
before the first `/`, then the part before the first `?`). -/
def canonChars (l : List Char) : List Char :=
  ((dropPat "www.".data (dropScheme ((stripChars l).map Char.toLower))).takeWhile
      (fun c => c ≠ '/')).takeWhile (fun c => c ≠ '?')

/-- `canonical_domain` of the script, on string inputs. -/
def canonical_domain (s : String) : String := String.mk (canonChars s.data)

/-- `canonical_domain` including the `isinstance(url, str)` guard: a
non-string input (modelled as `none`) yields `""`. -/
def canonical_domain_py : Option String → String
  | none => ""
  | some s => canonical_domain s

/-- Does `needle` occur as a contiguous run inside `hay`?  (Checked as: a
prefix at some position of `hay`.) -/
def isSubChars (needle : List Char) : List Char → Bool
  | [] => needle.isEmpty
  | c :: t => needle.isPrefixOf (c :: t) || isSubChars needle t

/-- Python `needle in hay` for strings (substring containment). -/
def containsStr (hay needle : String) : Bool := isSubChars needle.data hay.data

/-- A person object returned by the external people search; only the fields
the selection logic reads are modelled.  `title` may be absent (`None`). -/
structure Person where
  name : String
  title : Option String
deriving DecidableEq, Repr

/-- `(p.get("title") or "").lower()`. -/
def personTitle (p : Person) : String := lower (p.title.getD "")

/-- The fixed, ordered target-role keyword list `TITLE_KEYWORDS`. -/
def TITLE_KEYWORDS : List String :=
  ["Fleet Manager", "Director of Fleet", "Fleet Operations Manager", "Head of Fleet",
   "VP Fleet", "Director of Fleet Operations", "Procurement Manager", "Purchasing Manager",
   "Operations Manager", "Director of Operations", "Logistics Manager", "Director of Logistics",
   "Maintenance Manager", "Fleet Maintenance Manager", "Marketing Manager", "Director of Marketing"]

/-- The generic-seniority fallback tuple of the source:
`("director","vp","vice","head","manager")`. -/
def GENERIC_TITLE_WORDS : List String := ["director", "vp", "vice", "head", "manager"]

/-- Does person `p`'s (lowercased) title contain the lowercased keyword? -/
def titleHasKw (p : Person) (kw : String) : Bool := containsStr (personTitle p) (lower kw)

/-- `pick_decision_maker(people)`: `None` on an empty list; otherwise the
nested keyword-major scan over `TITLE_KEYWORDS`, then the first person whose
title contains one of the generic seniority words, then `people[0]`. -/
def pick_decision_maker (people : List Person) : Option Person :=
  if people.isEmpty then none
  else
    match TITLE_KEYWORDS.findSome? (fun kw => people.find? (fun p => titleHasKw p kw)) with
    | some p => some p
    | none =>
      match people.find? (fun p => GENERIC_TITLE_WORDS.any (fun w => containsStr (personTitle p) w)) with
      | some p => some p
      | none => people.head?

/-- The `EmployeeCount` field as the scorer sees it: the Python string is
abstracted by the outcome of `float(row.get("EmployeeCount") or 0)`:
an absent/empty field (falsy, so replaced by `0`), a string parsing to a
numeric value, or a non-empty string on which `float` raises. -/
inductive EmpCount where
  | empty
  | value (q : ℚ)
  | malformed
deriving DecidableEq, Repr

/-- The candidate row fields read by `compute_fit_score`. -/
structure FitRow where
  industry : String
  employeeCount : EmpCount
  dm1Email : String
  dm1DirectPhone : String
deriving DecidableEq, Repr

/-- The industry keyword list of the scorer. -/
def INDUSTRY_KEYWORDS : List String :=
  ["fleet", "transport", "logistics", "trucking", "delivery", "distribution"]

/-- `+30` if the lowercased industry text contains any relevant-sector keyword. -/
def industryBonus (industry : String) : Nat :=
  if INDUSTRY_KEYWORDS.any (fun kw => containsStr (lower industry) kw) then 30 else 0

/-- The `try/except` employee-count tier: `float(field or 0)` is `0` for an
absent/empty field (no tier), the parsed value otherwise, and the `except`
branch awards `5` when `float` raises. -/
def empTier : EmpCount → Nat
  | .empty => 0
  | .value q => if q ≥ 100 then 25 else if q ≥ 50 then 10 else 0
  | .malformed => 5

/-- Contact completeness: `+30` if both email and direct phone are truthy
(non-empty strings), `+10` if exactly one is, else `0`. -/
def contactBonus (email phone : String) : Nat :=
  if email ≠ "" ∧ phone ≠ "" then 30
  else if email ≠ "" ∨ phone ≠ "" then 10
  else 0

/-- The score before the final `min(100, ...)`. -/
def rawFitScore (r : FitRow) : Nat :=
  industryBonus r.industry + empTier r.employeeCount + contactBonus r.dm1Email r.dm1DirectPhone

/-- `compute_fit_score(row)` of the script. -/
def compute_fit_score (r : FitRow) : Nat := min 100 (rawFitScore r)

/-- A row of `assignment_history.csv`.  `domain` is the canonicalized domain
column `h["domain"]`, `week` the raw `WeekAssigned` cell. -/
structure AssignmentRecord where
  domain : String
  company : String
  rep : String
  week : String
deriving DecidableEq, Repr

/-- `in_12_months(domain, history_df)`: empty domains are never recent;
otherwise some history row matches the domain and has a `WeekAssigned`
parsing (`pd.to_datetime(..., errors="coerce")`, abstracted by `parseDate`,
`none` = `NaT`) to a date `≥ utcnow - timedelta(days=365)`.  `NaT >= cutoff`
is false in pandas, so an unparseable date never matches. -/
def in_12_months (parseDate : String → Option Int) (now : Int) (domain : String)
    (history : List AssignmentRecord) : Bool :=
  if domain = "" then false
  else history.any (fun r =>
    decide (r.domain = domain) &&
      (match parseDate r.week with
       | some d => decide (now - 365 ≤ d)
       | none => false))

/-- `read_prior_domains()`: the `Website`/`Domain` cells of the two legacy
CSVs (flattened into one list of raw cells), canonicalized, with the final
`{d for d in domains if d}` removing the empty string.  (The Python set is
modelled as a list; only membership is ever used.) -/
def read_prior_domains (rawCells : List String) : List String :=
  (rawCells.map canonical_domain).filter (fun d => d ≠ "")

/-- An enriched candidate row as the allocator sees it: the canonical domain,
the company name, and the computed `FitScore`. -/
structure Cand where
  domain : String
  company : String
  fitScore : Nat
deriving DecidableEq, Repr

/-- The dedup key `subset=["Domain","CompanyName"]`. -/
def candKey (c : Cand) : String × String := (c.domain, c.company)

/-- The comparison of `sort_values("FitScore", ascending=False)`. -/
def scoreGE (a b : Cand) : Prop := b.fitScore ≤ a.fitScore

instance : DecidableRel scoreGE := fun a b => Nat.decLe b.fitScore a.fitScore

instance : IsTotal Cand scoreGE := ⟨fun a b => Nat.le_total b.fitScore a.fitScore⟩

instance : IsTrans Cand scoreGE := ⟨fun _ _ _ h h' => Nat.le_trans h' h⟩

/-- `sort_values("FitScore", ascending=False)` (modelled with a stable
insertion sort; pandas does not fix the relative order of equal scores, the
model picks the stable one). -/
def sortByScore (l : List Cand) : List Cand := l.insertionSort scoreGE

/-- `drop_duplicates(subset=["Domain","CompanyName"], keep="first")`: keep
the first row of each key, scanning left to right; `seen` accumulates the
keys already kept. -/
def dropDupKeys (seen : List (String × String)) : List Cand → List Cand
  | [] => []
  | c :: cs =>
    if candKey c ∈ seen then dropDupKeys seen cs
    else c :: dropDupKeys (candKey c :: seen) cs

/-- Line 333: sort by score descending, then drop duplicate
`(Domain, CompanyName)` keys keeping the first (best-scored) row. -/
def dedupRanked (l : List Cand) : List Cand := dropDupKeys [] (sortByScore l)

/-- `domain_in_recent`: falsy domains short-circuit to `False`. -/
def domain_in_recent (parseDate : String → Option Int) (now : Int)
    (history : List AssignmentRecord) (domain : String) : Bool :=
  if domain = "" then false else in_12_months parseDate now domain history

/-- The rows surviving the rolling-exclusion filter
`df_en[~df_en["recent_assigned"]]`, still in score order. -/
def afterRecentFilter (parseDate : String → Option Int) (now : Int)
    (history : List AssignmentRecord) (l : List Cand) : List Cand :=
  (dedupRanked l).filter (fun c => !domain_in_recent parseDate now history c.domain)

/-- `top100 = df_en.head(100)`. -/
def top100 (parseDate : String → Option Int) (now : Int)
    (history : List AssignmentRecord) (l : List Cand) : List Cand :=
  (afterRecentFilter parseDate now history l).take 100

/-- `"Evan" if i%2==0 else "Dave"`. -/
def repOfIndex (i : Nat) : String := if i % 2 = 0 then "Evan" else "Dave"

/-- The batch with its `AssignedRep` column: row `i` gets `repOfIndex i`. -/
def withReps (batch : List Cand) : List (Cand × String) :=
  batch.enum.map (fun p => (p.2, repOfIndex p.1))

/-- `top100[top100["AssignedRep"]=="Evan"].head(50)`. -/
def evanBucket (batch : List Cand) : List Cand :=
  (((withReps batch).filter (fun p => p.2 = "Evan")).map Prod.fst).take 50

/-- `top100[top100["AssignedRep"]=="Dave"].head(50)`. -/
def daveBucket (batch : List Cand) : List Cand :=
  (((withReps batch).filter (fun p => p.2 = "Dave")).map Prod.fst).take 50

/-- The history rows appended at the end of the run: one per row of the
batch, with the row's domain, company, `AssignedRep`, and the run's
`WEEK_ASSIGNED`. -/
def newHistoryRows (week : String) (batch : List Cand) : List AssignmentRecord :=
  (withReps batch).map (fun p => ⟨p.1.domain, p.1.company, p.2, week⟩)

/-- Both positions of `splitAlternate`: even-indexed and odd-indexed elements
of a list (a helper used to reason about the alternating rep assignment). -/
def splitAlternate : List α → List α × List α
  | [] => ([], [])
  | c :: cs => ((splitAlternate cs).2.cons c, (splitAlternate cs).1)

/-- The rows emitted to the sheet, with the owner column each tab writes
(`to_sheet_rows(evan_df, "Evan")` / `to_sheet_rows(dave_df, "Dave")`). -/
def emittedRows (batch : List Cand) : List (Cand × String) :=
  (evanBucket batch).map (fun c => (c, "Evan")) ++
    (daveBucket batch).map (fun c => (c, "Dave"))

/-- `df[~df["canonical_domain"].isin(prior_domains)]`: drop the rows whose
canonical domain is a member of the permanent-exclusion set. -/
def priorFilter (priors : List String) (l : List Cand) : List Cand :=
  l.filter (fun c => decide (c.domain ∉ priors))

/-- The four-word generic-seniority set asserted by the claim.  (The source's
tuple has a fifth word, `"vice"`.) -/
def CLAIMED_GENERIC_WORDS : List String := ["director", "vp", "head", "manager"]

/-- Modelled from the claim's words, for comparison with the source's
`pick_decision_maker`: the same three-step ranked preference, but with the
generic-seniority keyword set being exactly
`"director", "vp", "head", "manager"`. -/
def claimedSelect (people : List Person) : Option Person :=
  if people.isEmpty then none
  else
    match TITLE_KEYWORDS.findSome? (fun kw => people.find? (fun p => titleHasKw p kw)) with
    | some p => some p
    | none =>
      match people.find?
          (fun p => CLAIMED_GENERIC_WORDS.any (fun w => containsStr (personTitle p) w)) with
      | some p => some p
      | none => people.head?

/-! ### Bounds for the fit scorer -/

theorem empTier_value (q : ℚ) :
    empTier (EmpCount.value q) = if q ≥ 100 then 25 else if q ≥ 50 then 10 else 0 := rfl

theorem industryBonus_le (s : String) : industryBonus s ≤ 30 := by
  unfold industryBonus; split_ifs <;> omega

theorem empTier_le (e : EmpCount) : empTier e ≤ 25 := by
  cases e with
  | empty => simp [empTier]
  | malformed => simp [empTier]
  | value q => rw [empTier_value]; split_ifs <;> omega

theorem contactBonus_le (e p : String) : contactBonus e p ≤ 30 := by
  unfold contactBonus; split_ifs <;> omega

theorem rawFitScore_le (r : FitRow) : rawFitScore r ≤ 85 := by
  have h1 := industryBonus_le r.industry
  have h2 := empTier_le r.employeeCount
  have h3 := contactBonus_le r.dm1Email r.dm1DirectPhone
  unfold rawFitScore; omega

theorem compute_fit_score_eq_raw (r : FitRow) : compute_fit_score r = rawFitScore r := by
  have h := rawFitScore_le r
  unfold compute_fit_score
  omega

/-- C8 counterexample (negation of the claim): no combination of candidate
inputs makes the unclamped sum of the industry, employee-count and
contact-completeness bonuses exceed 100 — the three maxima are 30, 25 and
30, so the sum is at most 85. -/
theorem fit_clamp_claim_negation : ¬ ∃ r : FitRow, 100 < rawFitScore r := by
  rintro ⟨r, h⟩
  have := rawFitScore_le r
  omega

/-- C8 (amended): the unclamped sum of the three bonuses never exceeds 85,
so the `min(100, ...)` clamp never alters the score — `compute_fit_score`
always returns the unclamped sum, and the clamp is vacuous. -/
theorem fit_clamp_amended (r : FitRow) :
    rawFitScore r ≤ 85 ∧ compute_fit_score r = rawFitScore r :=
  ⟨rawFitScore_le r, compute_fit_score_eq_raw r⟩

/-- C1 counterexample: a candidate row whose `EmployeeCount` field is empty
(absent/missing fields also arrive as the empty string) gets `0` points from
the employee-count tier, not `5`: with every other bonus also zero the whole
score is `0`, while the claim demands the tier alone contribute exactly `5`. -/
theorem fit_empty_empcount_cex :
    (FitRow.mk "" EmpCount.empty "" "").employeeCount = EmpCount.empty ∧
      compute_fit_score (FitRow.mk "" EmpCount.empty "" "") = 0 := by
  constructor
  · rfl
  · decide

/-- C1 (amended): the employee-count tier awards +25 when the count is at
least 100 and +10 when it is at least 50 and below 100; the `+5` fallback is
taken only when the field is present but unparseable (`float` raises).  An
absent or empty field is replaced by `0` before parsing (`row.get(...) or 0`)
and therefore adds `0`, exactly like a parsed value below 50. -/
theorem fit_emp_tier_amended :
    (∀ ind e p, compute_fit_score (FitRow.mk ind EmpCount.malformed e p) =
        compute_fit_score (FitRow.mk ind EmpCount.empty e p) + 5) ∧
    (∀ ind e p, compute_fit_score (FitRow.mk ind EmpCount.empty e p) =
        compute_fit_score (FitRow.mk ind (EmpCount.value 0) e p)) ∧
    (∀ ind e p (q : ℚ), 100 ≤ q →
      compute_fit_score (FitRow.mk ind (EmpCount.value q) e p) =
        compute_fit_score (FitRow.mk ind EmpCount.empty e p) + 25) ∧
    (∀ ind e p (q : ℚ), 50 ≤ q → q < 100 →
      compute_fit_score (FitRow.mk ind (EmpCount.value q) e p) =
        compute_fit_score (FitRow.mk ind EmpCount.empty e p) + 10) ∧
    (∀ ind e p (q : ℚ), q < 50 →
      compute_fit_score (FitRow.mk ind (EmpCount.value q) e p) =
        compute_fit_score (FitRow.mk ind EmpCount.empty e p)) := by
  have hra : ∀ ind ec e p, compute_fit_score (FitRow.mk ind ec e p) =
      industryBonus ind + empTier ec + contactBonus e p := by
    intro ind ec e p
    have := compute_fit_score_eq_raw (FitRow.mk ind ec e p)
    simpa [rawFitScore] using this
  refine ⟨?_, ?_, ?_, ?_, ?_⟩
  · intro ind e p; rw [hra, hra]; simp [empTier]; omega
  · intro ind e p; rw [hra, hra]; norm_num [empTier]
  · intro ind e p q hq
    rw [hra, hra]
    have h25 : empTier (EmpCount.value q) = 25 := by
      rw [empTier_value, if_pos hq]
    rw [h25]; simp [empTier]; omega
  · intro ind e p q h1 h2
    rw [hra, hra]
    have h10 : empTier (EmpCount.value q) = 10 := by
      rw [empTier_value, if_neg (by exact not_le.mpr h2), if_pos h1]
    rw [h10]; simp [empTier]; omega
  · intro ind e p q h1
    rw [hra, hra]
    have h0 : empTier (EmpCount.value q) = 0 := by
      rw [empTier_value, if_neg (by exact not_le.mpr (lt_trans h1 (by norm_num))),
        if_neg (by exact not_le.mpr h1)]
    rw [h0]; simp [empTier]


/-- C10: `pick_decision_maker` returns `None` exactly on an empty (falsy)
result list, and on a non-empty list it returns `some` element of that list —
it never fabricates a contact and never fails, so at most one contact, drawn
from the external results, is attached to a candidate. -/
theorem pick_decision_maker_total (people : List Person) :
    pick_decision_maker [] = (none : Option Person) ∧
      (people ≠ [] → ∃ p, pick_decision_maker people = some p ∧ p ∈ people) := by
  refine ⟨rfl, fun hne => ?_⟩
  unfold pick_decision_maker
  rw [if_neg (by simpa [List.isEmpty_iff] using hne)]
  rcases hfs : TITLE_KEYWORDS.findSome? (fun kw => people.find? (fun p => titleHasKw p kw)) with
    _ | p
  · rcases hfd : people.find?
        (fun p => GENERIC_TITLE_WORDS.any (fun w => containsStr (personTitle p) w)) with _ | p
    · exact ⟨people.head hne, by simp [List.head?_eq_head hne], List.head_mem hne⟩
    · exact ⟨p, rfl, List.mem_of_find?_eq_some hfd⟩
  · obtain ⟨kw, -, hfind⟩ := List.exists_of_findSome?_eq_some hfs
    exact ⟨p, rfl, List.mem_of_find?_eq_some hfind⟩

/-- Witness for C10 at a concrete one-element result list. -/
theorem pick_decision_maker_total_witness :
    ∃ p, pick_decision_maker [Person.mk "Ada" (some "Chief")] = some p ∧
      p ∈ [Person.mk "Ada" (some "Chief")] :=
  (pick_decision_maker_total [Person.mk "Ada" (some "Chief")]).2 (by decide)

/-- C3: for a non-empty domain, the rolling exclusion fires exactly when some
history record carries that domain together with an assignment date that
parses and lies at or after `now - 365` days; records whose dates are older
never suppress, a domain with no matching history is never suppressed, and a
record whose date fails to parse (`parseDate` returns `none`, pandas `NaT`)
is treated as not matching the window instead of raising. -/
theorem in_12_months_iff (parseDate : String → Option Int) (now : Int) (domain : String)
    (history : List AssignmentRecord) (hd : domain ≠ "") :
    in_12_months parseDate now domain history = true ↔
      ∃ r ∈ history, r.domain = domain ∧ ∃ d, parseDate r.week = some d ∧ now - 365 ≤ d := by
  unfold in_12_months
  rw [if_neg hd, List.any_eq_true]
  constructor
  · rintro ⟨r, hr, h⟩
    rcases hpd : parseDate r.week with _ | d
    · rw [hpd] at h; simp at h
    · rw [hpd] at h
      simp only [Bool.and_eq_true, decide_eq_true_eq] at h
      exact ⟨r, hr, h.1, d, hpd, h.2⟩
  · rintro ⟨r, hr, hdom, d, hpd, hle⟩
    exact ⟨r, hr, by rw [hpd]; simp [hdom, hle]⟩

/-- Witness for C3 at a concrete record and parse function. -/
theorem in_12_months_iff_witness :
    in_12_months (fun w => if w = "2025-06-01" then some 1000 else none) 1200 "a.com"
        [AssignmentRecord.mk "a.com" "Acme" "Evan" "2025-06-01"] = true ↔
      ∃ r ∈ [AssignmentRecord.mk "a.com" "Acme" "Evan" "2025-06-01"], r.domain = "a.com" ∧
        ∃ d, (fun w => if w = "2025-06-01" then some 1000 else none) r.week = some d ∧
          (1200 : Int) - 365 ≤ d :=
  in_12_months_iff (fun w => if w = "2025-06-01" then some 1000 else none) 1200 "a.com"
    [AssignmentRecord.mk "a.com" "Acme" "Evan" "2025-06-01"] (by decide)

/-- Witness for C1 (amended) at concrete employee counts 120, 60 and 10. -/
theorem fit_emp_tier_amended_witness :
    compute_fit_score (FitRow.mk "" (EmpCount.value 120) "" "") =
        compute_fit_score (FitRow.mk "" EmpCount.empty "" "") + 25 ∧
      compute_fit_score (FitRow.mk "" (EmpCount.value 60) "" "") =
        compute_fit_score (FitRow.mk "" EmpCount.empty "" "") + 10 ∧
      compute_fit_score (FitRow.mk "" (EmpCount.value 10) "" "") =
        compute_fit_score (FitRow.mk "" EmpCount.empty "" "") :=
  ⟨fit_emp_tier_amended.2.2.1 "" "" "" 120 (by norm_num),
   fit_emp_tier_amended.2.2.2.1 "" "" "" 60 (by norm_num) (by norm_num),
   fit_emp_tier_amended.2.2.2.2 "" "" "" 10 (by norm_num)⟩

/-! ### Idempotence analysis of the domain normalizer -/

theorem char_toLower_idem (c : Char) : c.toLower.toLower = c.toLower := by
  unfold Char.toLower
  by_cases h : c.toNat ≥ 65 ∧ c.toNat ≤ 90
  · rw [if_pos h]
    have hv : (c.toNat + 32).isValidChar := Or.inl (by omega)
    have ht : (Char.ofNat (c.toNat + 32)).toNat = c.toNat + 32 := by
      unfold Char.ofNat
      rw [dif_pos hv]
      rfl
    rw [if_neg (by rw [ht]; omega)]
  · rw [if_neg h, if_neg h]

theorem dropPat_sublist (p l : List Char) : (dropPat p l).Sublist l := by
  unfold dropPat; split
  · exact List.drop_sublist _ _
  · exact List.Sublist.refl _

theorem dropScheme_sublist (l : List Char) : (dropScheme l).Sublist l := by
  unfold dropScheme; split
  · exact List.drop_sublist _ _
  · split
    · exact List.drop_sublist _ _
    · exact List.Sublist.refl _

theorem canonChars_sublist_lower (l : List Char) :
    (canonChars l).Sublist ((stripChars l).map Char.toLower) := by
  unfold canonChars
  refine ((List.takeWhile_sublist _).trans (List.takeWhile_sublist _)).trans
    ((dropPat_sublist _ _).trans (dropScheme_sublist _))

theorem canonChars_toLower_fixed (l : List Char) :
    ∀ c ∈ canonChars l, c.toLower = c := by
  intro c hc
  have hmem : c ∈ (stripChars l).map Char.toLower :=
    (canonChars_sublist_lower l).subset hc
  obtain ⟨d, -, hd⟩ := List.mem_map.mp hmem
  rw [← hd, char_toLower_idem]

theorem canonChars_no_slash (l : List Char) : ∀ c ∈ canonChars l, c ≠ '/' := by
  intro c hc
  have hz : c ∈ (dropPat "www.".data (dropScheme ((stripChars l).map Char.toLower))).takeWhile
      (fun c => c ≠ '/') := (List.takeWhile_sublist _).subset hc
  simpa using List.mem_takeWhile_imp hz

theorem canonChars_no_query (l : List Char) : ∀ c ∈ canonChars l, c ≠ '?' := by
  intro c hc
  simpa using List.mem_takeWhile_imp hc

theorem no_slash_not_scheme (y : List Char) (hns : ∀ c ∈ y, c ≠ '/') :
    "http://".data.isPrefixOf y = false ∧ "https://".data.isPrefixOf y = false := by
  constructor
  · by_contra h
    rw [Bool.not_eq_false, List.isPrefixOf_iff_prefix] at h
    obtain ⟨t, ht⟩ := h
    exact hns '/' (ht ▸ List.mem_append_left t (by decide)) rfl
  · by_contra h
    rw [Bool.not_eq_false, List.isPrefixOf_iff_prefix] at h
    obtain ⟨t, ht⟩ := h
    exact hns '/' (ht ▸ List.mem_append_left t (by decide)) rfl

/-- C2 counterexample: the domain normalizer is not idempotent: stripping one
`www.` can expose another, so `canonical_domain "www.www.foo.com"` is
`"www.foo.com"` while a second application gives `"foo.com"`. -/
theorem canonical_domain_idem_cex :
    canonical_domain (canonical_domain "www.www.foo.com") ≠
      canonical_domain "www.www.foo.com" := by decide

/-- C2 (amended): `canonical_domain` maps a non-string (`None`) input to
`""`, and it is idempotent on every string whose normalized form does not
itself start with `www.` and carries no surrounding whitespace (the two ways
a second pass can still rewrite: normalization can expose a new leading
`www.`, and removing `http://` can expose leading whitespace that the first
pass's initial `strip` no longer sees). -/
theorem canonical_domain_idem_amended :
    canonical_domain_py none = "" ∧
      ∀ x : String,
        "www.".data.isPrefixOf (canonical_domain x).data = false →
        stripChars (canonical_domain x).data = (canonical_domain x).data →
        canonical_domain (canonical_domain x) = canonical_domain x := by
  refine ⟨rfl, fun x hw hs => ?_⟩
  have hdata : (canonical_domain x).data = canonChars x.data := rfl
  rw [hdata] at hw hs
  show String.mk (canonChars (canonical_domain x).data) = canonical_domain x
  rw [show canonical_domain x = String.mk (canonChars x.data) from rfl]
  refine congrArg String.mk ?_
  set y := canonChars x.data with hy
  have hlower : y.map Char.toLower = y := by
    have hfix := canonChars_toLower_fixed x.data
    rw [← hy] at hfix
    rw [List.map_congr_left hfix]
    simp
  have hns : ∀ c ∈ y, c ≠ '/' := by
    have := canonChars_no_slash x.data; rwa [← hy] at this
  have hnq : ∀ c ∈ y, c ≠ '?' := by
    have := canonChars_no_query x.data; rwa [← hy] at this
  obtain ⟨hsch1, hsch2⟩ := no_slash_not_scheme y hns
  unfold canonChars
  rw [hs, hlower]
  rw [show dropScheme y = y by unfold dropScheme; rw [hsch1, hsch2]; rfl]
  rw [show dropPat "www.".data y = y by unfold dropPat; rw [hw]; rfl]
  have h1 : y.takeWhile (fun c => c ≠ '/') = y :=
    List.takeWhile_eq_self_iff.mpr (fun c hc => by simpa using hns c hc)
  have h2 : y.takeWhile (fun c => c ≠ '?') = y :=
    List.takeWhile_eq_self_iff.mpr (fun c hc => by simpa using hnq c hc)
  rw [h1, h2]

/-- Witness for C2 (amended) at a concrete URL whose canonical form is
stable. -/
theorem canonical_domain_idem_amended_witness :
    canonical_domain (canonical_domain "HTTP://www.Example.com/path?q=1") =
      canonical_domain "HTTP://www.Example.com/path?q=1" :=
  canonical_domain_idem_amended.2 "HTTP://www.Example.com/path?q=1" (by decide) (by decide)

/-! ### Contact selection -/

/-- C7 counterexample: for `[Pat "Intern", Lee "Vice President"]` no
target-role keyword matches anyone; the source's generic scan selects Lee
through the fifth generic word `"vice"`, whereas the claim's exact four-word
set matches nobody and would fall through to the first person Pat. -/
theorem pick_decision_maker_cex :
    pick_decision_maker
        [Person.mk "Pat" (some "Intern"), Person.mk "Lee" (some "Vice President")] =
        some (Person.mk "Lee" (some "Vice President")) ∧
      claimedSelect
        [Person.mk "Pat" (some "Intern"), Person.mk "Lee" (some "Vice President")] =
        some (Person.mk "Pat" (some "Intern")) := by
  constructor
  · decide
  · decide

theorem pick_dm_of_ne_nil (people : List Person) (hne : people ≠ []) :
    pick_decision_maker people =
      match TITLE_KEYWORDS.findSome? (fun kw => people.find? (fun p => titleHasKw p kw)) with
      | some p => some p
      | none =>
        match people.find?
            (fun p => GENERIC_TITLE_WORDS.any (fun w => containsStr (personTitle p) w)) with
        | some p => some p
        | none => people.head? := by
  unfold pick_decision_maker
  rw [if_neg (by simp [List.isEmpty_iff, hne])]

/-- C7 (amended): the selection follows the three-step ranked preference of
the claim, except that the generic-seniority set is exactly the five words
`"director", "vp", "vice", "head", "manager"`: (1) if all keywords strictly
before `kw` in `TITLE_KEYWORDS` match nobody and the first person matching
`kw` is `q`, the scan returns `q`; (2) if no target-role keyword matches
anyone, the first person with a generic-seniority word in the title is
returned; (3) if that also matches nobody, the first person is returned. -/
theorem pick_decision_maker_amended (people : List Person) (hne : people ≠ []) :
    (∀ pre kw post, TITLE_KEYWORDS = pre ++ kw :: post →
      (∀ kw' ∈ pre, people.find? (fun p => titleHasKw p kw') = none) →
      ∀ q, people.find? (fun p => titleHasKw p kw) = some q →
      pick_decision_maker people = some q) ∧
    ((∀ kw ∈ TITLE_KEYWORDS, people.find? (fun p => titleHasKw p kw) = none) →
      ∀ q, people.find?
          (fun p => GENERIC_TITLE_WORDS.any (fun w => containsStr (personTitle p) w)) = some q →
      pick_decision_maker people = some q) ∧
    ((∀ kw ∈ TITLE_KEYWORDS, people.find? (fun p => titleHasKw p kw) = none) →
      people.find?
          (fun p => GENERIC_TITLE_WORDS.any (fun w => containsStr (personTitle p) w)) = none →
      pick_decision_maker people = people.head?) := by
  refine ⟨?_, ?_, ?_⟩
  · intro pre kw post heq hpre q hq
    have hfs : TITLE_KEYWORDS.findSome?
        (fun kw' => people.find? (fun p => titleHasKw p kw')) = some q := by
      rw [heq, List.findSome?_append, List.findSome?_eq_none_iff.mpr hpre,
        Option.none_or, List.findSome?_cons, hq]
    rw [pick_dm_of_ne_nil people hne, hfs]
  · intro hall q hq
    have hfs : TITLE_KEYWORDS.findSome?
        (fun kw' => people.find? (fun p => titleHasKw p kw')) = none :=
      List.findSome?_eq_none_iff.mpr hall
    rw [pick_dm_of_ne_nil people hne, hfs, hq]
  · intro hall hgen
    have hfs : TITLE_KEYWORDS.findSome?
        (fun kw' => people.find? (fun p => titleHasKw p kw')) = none :=
      List.findSome?_eq_none_iff.mpr hall
    rw [pick_dm_of_ne_nil people hne, hfs, hgen]

/-- Witness for C7 (amended), exercising all three steps at concrete inputs:
a `Fleet Manager` keyword match, a generic `director` match, and the
first-person fallback. -/
theorem pick_decision_maker_amended_witness :
    pick_decision_maker [Person.mk "Flo" (some "Senior Fleet Manager")] =
        some (Person.mk "Flo" (some "Senior Fleet Manager")) ∧
      pick_decision_maker [Person.mk "Dir" (some "Director of Sales")] =
        some (Person.mk "Dir" (some "Director of Sales")) ∧
      pick_decision_maker [Person.mk "Ann" (some "Accountant")] =
        [Person.mk "Ann" (some "Accountant")].head? :=
  ⟨(pick_decision_maker_amended [Person.mk "Flo" (some "Senior Fleet Manager")]
      (by decide)).1 [] "Fleet Manager" TITLE_KEYWORDS.tail rfl (by simp) _ (by decide),
   (pick_decision_maker_amended [Person.mk "Dir" (some "Director of Sales")]
      (by decide)).2.1 (by decide) _ (by decide),
   (pick_decision_maker_amended [Person.mk "Ann" (some "Accountant")]
      (by decide)).2.2 (by decide) (by decide)⟩

/-! ### Deduplication -/

theorem dropDupKeys_sublist (seen : List (String × String)) (l : List Cand) :
    (dropDupKeys seen l).Sublist l := by
  induction l generalizing seen with
  | nil => simp [dropDupKeys]
  | cons a cs ih =>
    unfold dropDupKeys
    split
    · exact (ih seen).trans (List.sublist_cons_self a cs)
    · exact (ih _).cons₂ a

theorem mem_dropDupKeys_not_seen (seen : List (String × String)) (l : List Cand) :
    ∀ c ∈ dropDupKeys seen l, candKey c ∉ seen := by
  induction l generalizing seen with
  | nil => simp [dropDupKeys]
  | cons a cs ih =>
    unfold dropDupKeys
    split
    · exact ih seen
    · intro c hc
      rcases List.mem_cons.mp hc with rfl | hc'
      · assumption
      · exact fun hin => ih _ c hc' (List.mem_cons_of_mem _ hin)

theorem dropDupKeys_pairwise (seen : List (String × String)) (l : List Cand) :
    (dropDupKeys seen l).Pairwise (fun a b => candKey a ≠ candKey b) := by
  induction l generalizing seen with
  | nil => simp [dropDupKeys]
  | cons a cs ih =>
    unfold dropDupKeys
    split
    · exact ih seen
    · refine List.pairwise_cons.mpr ⟨fun b hb hEq => ?_, ih _⟩
      exact mem_dropDupKeys_not_seen _ _ b hb (hEq ▸ List.mem_cons_self _ _)

theorem dropDupKeys_filter_key (k : String × String) :
    ∀ (l : List Cand) (seen : List (String × String)),
      (dropDupKeys seen l).filter (fun d => candKey d = k) =
        if k ∈ seen then [] else (l.filter (fun d => candKey d = k)).take 1 := by
  intro l
  induction l with
  | nil => intro seen; by_cases hk : k ∈ seen <;> simp [dropDupKeys, hk]
  | cons a cs ih =>
    intro seen
    unfold dropDupKeys
    by_cases hseen : candKey a ∈ seen
    · rw [if_pos hseen, ih seen]
      by_cases hk : k ∈ seen
      · simp [hk]
      · rw [if_neg hk, if_neg hk,
          List.filter_cons_of_neg
            (by simp only [decide_eq_true_eq]; exact fun h => hk (h ▸ hseen))]
    · rw [if_neg hseen]
      by_cases hak : candKey a = k
      · subst hak
        rw [List.filter_cons_of_pos (by simp), ih (candKey a :: seen),
          if_pos (List.mem_cons_self _ _), if_neg hseen,
          List.filter_cons_of_pos (by simp)]
        simp
      · rw [List.filter_cons_of_neg (by simpa using hak), ih (candKey a :: seen)]
        by_cases hk : k ∈ seen
        · rw [if_pos (List.mem_cons_of_mem _ hk), if_pos hk]
        · rw [if_neg (by simp [List.mem_cons, hk]; exact fun h => hak h.symm), if_neg hk,
            List.filter_cons_of_neg (by simpa using hak)]

theorem sortByScore_perm (l : List Cand) : (sortByScore l).Perm l :=
  List.perm_insertionSort scoreGE l

theorem sortByScore_sorted (l : List Cand) : (sortByScore l).Sorted scoreGE :=
  List.sorted_insertionSort scoreGE l

theorem dedupRanked_filter_key (l : List Cand) (k : String × String) :
    (dedupRanked l).filter (fun d => candKey d = k) =
      ((sortByScore l).filter (fun d => candKey d = k)).take 1 := by
  unfold dedupRanked
  rw [dropDupKeys_filter_key k (sortByScore l) [], if_neg (List.not_mem_nil k)]

theorem dedupRanked_sublist (l : List Cand) : (dedupRanked l).Sublist (sortByScore l) :=
  dropDupKeys_sublist [] (sortByScore l)

theorem dedupRanked_pairwise (l : List Cand) :
    (dedupRanked l).Pairwise (fun a b => candKey a ≠ candKey b) :=
  dropDupKeys_pairwise [] (sortByScore l)

/-- C4: deduplication keeps the best-scored instance.  For every candidate
key occurring in the input, exactly one row with that key survives
`dedupRanked`; the survivor is the head of the score-sorted rows of its key
(so ties go to the first occurrence in the sorted order) and its score
dominates every input row with the same key; the surviving list is sorted by
`FitScore` descending, and the batch is truncated to at most 100 rows. -/
theorem dedup_keeps_best (l : List Cand) :
    (∀ c ∈ l, ((dedupRanked l).filter (fun d => candKey d = candKey c)).length = 1) ∧
    (∀ c ∈ dedupRanked l,
      ((sortByScore l).filter (fun d => candKey d = candKey c)).head? = some c) ∧
    (∀ c ∈ dedupRanked l, ∀ c' ∈ l, candKey c' = candKey c → c'.fitScore ≤ c.fitScore) ∧
    (dedupRanked l).Sorted scoreGE ∧
    (∀ parseDate now history, (top100 parseDate now history l).Sorted scoreGE ∧
      (top100 parseDate now history l).length ≤ 100) := by
  have hhead : ∀ c ∈ dedupRanked l,
      ((sortByScore l).filter (fun d => candKey d = candKey c)).head? = some c := by
    intro c hc
    have hcf : c ∈ (dedupRanked l).filter (fun d => candKey d = candKey c) :=
      List.mem_filter.mpr ⟨hc, by simp⟩
    rw [dedupRanked_filter_key] at hcf
    rcases hF : (sortByScore l).filter (fun d => candKey d = candKey c) with _ | ⟨a, t⟩
    · rw [hF] at hcf; simp at hcf
    · rw [hF] at hcf
      simp at hcf
      rw [hcf]
      rfl
  refine ⟨?_, hhead, ?_, ?_, ?_⟩
  · intro c hc
    rw [dedupRanked_filter_key]
    have hcs : c ∈ sortByScore l := (sortByScore_perm l).mem_iff.mpr hc
    have : c ∈ (sortByScore l).filter (fun d => candKey d = candKey c) :=
      List.mem_filter.mpr ⟨hcs, by simp⟩
    rcases hF : (sortByScore l).filter (fun d => candKey d = candKey c) with _ | ⟨a, t⟩
    · rw [hF] at this; simp at this
    · simp
  · intro c hc c' hc' hkey
    have hsrt : ((sortByScore l).filter (fun d => candKey d = candKey c)).Sorted scoreGE :=
      (sortByScore_sorted l).filter _
    have hmem : c' ∈ (sortByScore l).filter (fun d => candKey d = candKey c) :=
      List.mem_filter.mpr ⟨(sortByScore_perm l).mem_iff.mpr hc', by simp [hkey]⟩
    have hh := hhead c hc
    rcases hF : (sortByScore l).filter (fun d => candKey d = candKey c) with _ | ⟨a, t⟩
    · rw [hF] at hmem; simp at hmem
    · rw [hF] at hh hmem hsrt
      simp at hh
      subst hh
      rcases List.mem_cons.mp hmem with rfl | hmem'
      · exact le_refl _
      · exact (List.sorted_cons.mp hsrt).1 c' hmem'
  · exact List.Pairwise.sublist (dedupRanked_sublist l) (sortByScore_sorted l)
  · intro parseDate now history
    have hsub : (top100 parseDate now history l).Sublist (dedupRanked l) :=
      (List.take_sublist _ _).trans (List.filter_sublist _)
    refine ⟨List.Pairwise.sublist hsub
      (List.Pairwise.sublist (dedupRanked_sublist l) (sortByScore_sorted l)), ?_⟩
    unfold top100
    simp [List.length_take]

/-- Witness for C4 at a concrete duplicated key: of the two `(a.com, Acme)`
rows with scores 40 and 85, only the 85-scored one survives. -/
theorem dedup_keeps_best_witness :
    ((dedupRanked [Cand.mk "a.com" "Acme" 40, Cand.mk "a.com" "Acme" 85, Cand.mk "b.com" "B" 10]).filter
        (fun d => candKey d = candKey (Cand.mk "a.com" "Acme" 40))).length = 1 ∧
      ((sortByScore [Cand.mk "a.com" "Acme" 40, Cand.mk "a.com" "Acme" 85, Cand.mk "b.com" "B" 10]).filter
        (fun d => candKey d = candKey (Cand.mk "a.com" "Acme" 85))).head? =
        some (Cand.mk "a.com" "Acme" 85) ∧
      (Cand.mk "a.com" "Acme" 40).fitScore ≤ (Cand.mk "a.com" "Acme" 85).fitScore :=
  ⟨(dedup_keeps_best
      [Cand.mk "a.com" "Acme" 40, Cand.mk "a.com" "Acme" 85, Cand.mk "b.com" "B" 10]).1
     (Cand.mk "a.com" "Acme" 40) (by decide),
   (dedup_keeps_best
      [Cand.mk "a.com" "Acme" 40, Cand.mk "a.com" "Acme" 85, Cand.mk "b.com" "B" 10]).2.1
     (Cand.mk "a.com" "Acme" 85) (by decide),
   (dedup_keeps_best
      [Cand.mk "a.com" "Acme" 40, Cand.mk "a.com" "Acme" 85, Cand.mk "b.com" "B" 10]).2.2.1
     (Cand.mk "a.com" "Acme" 85) (by decide)
     (Cand.mk "a.com" "Acme" 40) (by decide) (by decide)⟩

/-! ### The alternating split -/

theorem splitAlternate_length (l : List Cand) :
    (splitAlternate l).1.length = (l.length + 1) / 2 ∧
      (splitAlternate l).2.length = l.length / 2 := by
  induction l with
  | nil => simp [splitAlternate]
  | cons a t ih =>
    unfold splitAlternate
    refine ⟨?_, ?_⟩
    · simp only [List.length_cons, ih.2]
      omega
    · simp only [List.length_cons, ih.1]

theorem splitAlternate_perm (l : List Cand) :
    ((splitAlternate l).1 ++ (splitAlternate l).2).Perm l := by
  induction l with
  | nil => simp [splitAlternate]
  | cons a t ih =>
    unfold splitAlternate
    simp only [List.cons_append]
    exact ((List.perm_append_comm).trans ih).cons a

theorem splitAlternate_get? (l : List Cand) :
    ∀ j, (splitAlternate l).1.get? j = l.get? (2 * j) ∧
      (splitAlternate l).2.get? j = l.get? (2 * j + 1) := by
  induction l with
  | nil => intro j; simp [splitAlternate]
  | cons a t ih =>
    intro j
    constructor
    · cases j with
      | zero => simp [splitAlternate]
      | succ i =>
        show ((splitAlternate t).2.cons a).get? (i + 1) = (a :: t).get? (2 * (i + 1))
        rw [List.get?_cons_succ, show 2 * (i + 1) = (2 * i + 1) + 1 by ring,
          List.get?_cons_succ]
        exact (ih i).2
    · show (splitAlternate t).1.get? j = (a :: t).get? (2 * j + 1)
      rw [List.get?_cons_succ]
      exact (ih j).1

theorem enumFrom_filter_rep (l : List Cand) :
    ∀ n, ((((List.enumFrom n l).map (fun p => (p.2, repOfIndex p.1))).filter
          (fun p => p.2 = "Evan")).map Prod.fst =
        (if n % 2 = 0 then (splitAlternate l).1 else (splitAlternate l).2)) ∧
      ((((List.enumFrom n l).map (fun p => (p.2, repOfIndex p.1))).filter
          (fun p => p.2 = "Dave")).map Prod.fst =
        (if n % 2 = 0 then (splitAlternate l).2 else (splitAlternate l).1)) := by
  induction l with
  | nil => intro n; simp [splitAlternate]
  | cons a t ih =>
    intro n
    rw [List.enumFrom_cons]
    rcases Nat.mod_two_eq_zero_or_one n with h | h
    · have hrep : repOfIndex n = "Evan" := by simp [repOfIndex, h]
      have hn1 : ¬ ((n + 1) % 2 = 0) := by omega
      constructor
      · rw [List.map_cons, List.filter_cons_of_pos (by simp [hrep]), List.map_cons]
        rw [(ih (n + 1)).1, if_neg hn1, if_pos h]
        rfl
      · rw [List.map_cons, List.filter_cons_of_neg (by simp [hrep]), (ih (n + 1)).2,
          if_neg hn1, if_pos h]
        rfl
    · have hrep : repOfIndex n = "Dave" := by simp [repOfIndex, h]
      have hn1 : (n + 1) % 2 = 0 := by omega
      constructor
      · rw [List.map_cons, List.filter_cons_of_neg (by simp [hrep]), (ih (n + 1)).1,
          if_pos hn1, if_neg (by omega)]
        rfl
      · rw [List.map_cons, List.filter_cons_of_pos (by simp [hrep]), List.map_cons,
          (ih (n + 1)).2, if_pos hn1, if_neg (by omega)]
        rfl

theorem evanBucket_eq (b : List Cand) : evanBucket b = (splitAlternate b).1.take 50 := by
  unfold evanBucket withReps
  have h := (enumFrom_filter_rep b 0).1
  rw [if_pos (by norm_num)] at h
  rw [show b.enum = List.enumFrom 0 b from rfl, h]

theorem daveBucket_eq (b : List Cand) : daveBucket b = (splitAlternate b).2.take 50 := by
  unfold daveBucket withReps
  have h := (enumFrom_filter_rep b 0).2
  rw [if_pos (by norm_num)] at h
  rw [show b.enum = List.enumFrom 0 b from rfl, h]

theorem top100_key_pairwise (parseDate : String → Option Int) (now : Int)
    (history : List AssignmentRecord) (l : List Cand) :
    (top100 parseDate now history l).Pairwise (fun a b => candKey a ≠ candKey b) :=
  List.Pairwise.sublist ((List.take_sublist _ _).trans (List.filter_sublist _))
    (dedupRanked_pairwise l)

/-- C5: the allocator splits the truncated batch by strict positional
alternation — row `i` of the batch belongs to the Evan bucket exactly when
`i` is even and to the Dave bucket exactly when `i` is odd — each bucket is
capped at 50 rows, the two buckets are disjoint, and their sizes differ by
at most one.  (The batch the splitter receives is always the deduplicated,
history-filtered, truncated `top100`, whose rows have pairwise-distinct
`(Domain, CompanyName)` keys.) -/
theorem allocator_split (parseDate : String → Option Int) (now : Int)
    (history : List AssignmentRecord) (l : List Cand) (b : List Cand)
    (hb : b = top100 parseDate now history l) (h2 : 2 ≤ b.length) :
    (∀ c ∈ evanBucket b, c ∉ daveBucket b) ∧
      (evanBucket b).length ≤ 50 ∧ (daveBucket b).length ≤ 50 ∧
      (evanBucket b).length ≤ (daveBucket b).length + 1 ∧
      (daveBucket b).length ≤ (evanBucket b).length + 1 ∧
      (∀ i c, b.get? i = some c → i < 100 →
        ((c ∈ evanBucket b ↔ i % 2 = 0) ∧ (c ∈ daveBucket b ↔ i % 2 = 1))) := by
  have hnd : b.Nodup := by
    rw [hb]
    exact (top100_key_pairwise parseDate now history l).imp
      (fun h heq => h (congrArg candKey heq))
  have hndapp : ((splitAlternate b).1 ++ (splitAlternate b).2).Nodup :=
    ((splitAlternate_perm b).nodup_iff).mpr hnd
  have hdisj := (List.nodup_append.mp hndapp).2.2
  have hev := evanBucket_eq b
  have hdv := daveBucket_eq b
  have hlen := splitAlternate_length b
  have hmemE : ∀ c ∈ evanBucket b, c ∈ (splitAlternate b).1 := by
    intro c hc; rw [hev] at hc; exact (List.take_sublist _ _).subset hc
  have hmemD : ∀ c ∈ daveBucket b, c ∈ (splitAlternate b).2 := by
    intro c hc; rw [hdv] at hc; exact (List.take_sublist _ _).subset hc
  refine ⟨fun c hc hcd => hdisj (hmemE c hc) (hmemD c hcd), ?_, ?_, ?_, ?_, ?_⟩
  · rw [hev]; simp [List.length_take]
  · rw [hdv]; simp [List.length_take]
  · rw [hev, hdv]; simp only [List.length_take, hlen.1, hlen.2]; omega
  · rw [hev, hdv]; simp only [List.length_take, hlen.1, hlen.2]; omega
  · intro i c hget hi
    have hEfwd : i % 2 = 0 → c ∈ evanBucket b := by
      intro hpar
      have h1 : (splitAlternate b).1.get? (i / 2) = some c := by
        rw [(splitAlternate_get? b (i / 2)).1, show 2 * (i / 2) = i by omega, hget]
      have h2' : ((splitAlternate b).1.take 50).get? (i / 2) = some c := by
        rw [List.get?_take (by omega : i / 2 < 50)]
        exact h1
      rw [hev]
      exact List.get?_mem h2'
    have hDfwd : i % 2 = 1 → c ∈ daveBucket b := by
      intro hpar
      have h1 : (splitAlternate b).2.get? (i / 2) = some c := by
        rw [(splitAlternate_get? b (i / 2)).2, show 2 * (i / 2) + 1 = i by omega, hget]
      have h2' : ((splitAlternate b).2.take 50).get? (i / 2) = some c := by
        rw [List.get?_take (by omega : i / 2 < 50)]
        exact h1
      rw [hdv]
      exact List.get?_mem h2'
    refine ⟨⟨fun hcE => ?_, hEfwd⟩, ⟨fun hcD => ?_, hDfwd⟩⟩
    · rcases Nat.mod_two_eq_zero_or_one i with h | h
      · exact h
      · exact (hdisj (hmemE c hcE) (hmemD c (hDfwd h))).elim
    · rcases Nat.mod_two_eq_zero_or_one i with h | h
      · exact (hdisj (hmemE c (hEfwd h)) (hmemD c hcD)).elim
      · exact h

/-- Witness for C5 at a concrete two-row batch. -/
theorem allocator_split_witness :
    (∀ c ∈ evanBucket [Cand.mk "a.com" "A" 5, Cand.mk "b.com" "B" 3],
      c ∉ daveBucket [Cand.mk "a.com" "A" 5, Cand.mk "b.com" "B" 3]) ∧
      (evanBucket [Cand.mk "a.com" "A" 5, Cand.mk "b.com" "B" 3]).length ≤
        (daveBucket [Cand.mk "a.com" "A" 5, Cand.mk "b.com" "B" 3]).length + 1 :=
  ⟨(allocator_split (fun _ => none) 0 [] [Cand.mk "a.com" "A" 5, Cand.mk "b.com" "B" 3]
      [Cand.mk "a.com" "A" 5, Cand.mk "b.com" "B" 3] (by decide) (by decide)).1,
   (allocator_split (fun _ => none) 0 [] [Cand.mk "a.com" "A" 5, Cand.mk "b.com" "B" 3]
      [Cand.mk "a.com" "A" 5, Cand.mk "b.com" "B" 3] (by decide) (by decide)).2.2.2.1⟩

/-! ### Round trip into the assignment ledger -/

theorem countP_le_one_of_pairwise {β : Type} (p : β → Bool) (l : List β)
    (h : l.Pairwise (fun a b => p a = true → p b = false)) : l.countP p ≤ 1 := by
  induction l with
  | nil => simp
  | cons a t ih =>
    rw [List.countP_cons]
    rcases List.pairwise_cons.mp h with ⟨hab, ht⟩
    by_cases hpa : p a = true
    · have h0 : t.countP p = 0 :=
        List.countP_eq_zero.mpr (fun b hb => by simp [hab b hb hpa])
      simp [h0, hpa]
    · simpa [hpa] using ih ht

theorem withReps_key_pairwise (b : List Cand)
    (hp : b.Pairwise (fun a c => candKey a ≠ candKey c)) :
    (withReps b).Pairwise (fun p q => candKey p.1 ≠ candKey q.1) := by
  have h1 : b.enum.Pairwise (fun p q => candKey p.2 ≠ candKey q.2) := by
    have h2 : List.map Prod.snd b.enum = b := List.enum_map_snd b
    rw [← h2] at hp
    have h3 := List.pairwise_map.mp hp
    exact h3
  unfold withReps
  exact List.pairwise_map.mpr (h1.imp (fun h => h))

theorem mem_evanBucket_withReps (b : List Cand) (c : Cand) (hc : c ∈ evanBucket b) :
    (c, "Evan") ∈ withReps b := by
  unfold evanBucket at hc
  have h1 : c ∈ ((withReps b).filter (fun p => p.2 = "Evan")).map Prod.fst :=
    (List.take_sublist _ _).subset hc
  obtain ⟨p, hp, hfst⟩ := List.mem_map.mp h1
  obtain ⟨hpw, hcond⟩ := List.mem_filter.mp hp
  have hpe : p = (c, "Evan") := by
    rcases p with ⟨p1, p2⟩
    simp only [decide_eq_true_eq] at hcond
    simp only at hfst
    rw [hfst] at *
    rw [hcond]
  rwa [hpe] at hpw

theorem mem_daveBucket_withReps (b : List Cand) (c : Cand) (hc : c ∈ daveBucket b) :
    (c, "Dave") ∈ withReps b := by
  unfold daveBucket at hc
  have h1 : c ∈ ((withReps b).filter (fun p => p.2 = "Dave")).map Prod.fst :=
    (List.take_sublist _ _).subset hc
  obtain ⟨p, hp, hfst⟩ := List.mem_map.mp h1
  obtain ⟨hpw, hcond⟩ := List.mem_filter.mp hp
  have hpe : p = (c, "Dave") := by
    rcases p with ⟨p1, p2⟩
    simp only [decide_eq_true_eq] at hcond
    simp only at hfst
    rw [hfst] at *
    rw [hcond]
  rwa [hpe] at hpw

/-- C6: every candidate emitted to an output bucket generates exactly one
`AssignmentRecord` appended to the ledger: the record with the candidate's
domain, company name, assigned owner, and the run's week identifier is among
the appended rows, and exactly one appended row carries that candidate's
domain and company. -/
theorem emitted_roundtrip (parseDate : String → Option Int) (now : Int)
    (history : List AssignmentRecord) (week : String) (l : List Cand) (b : List Cand)
    (hb : b = top100 parseDate now history l) :
    ∀ c rep, (c, rep) ∈ emittedRows b →
      AssignmentRecord.mk c.domain c.company rep week ∈ newHistoryRows week b ∧
      ((newHistoryRows week b).filter
          (fun rec => rec.domain = c.domain ∧ rec.company = c.company)).length = 1 := by
  intro c rep hmem
  have hwr : (c, rep) ∈ withReps b := by
    rcases List.mem_append.mp hmem with h | h
    · obtain ⟨c', hc', heq⟩ := List.mem_map.mp h
      obtain ⟨h1, h2⟩ := Prod.mk.injEq c' "Evan" c rep ▸ heq
      rw [← h1, ← h2]
      exact mem_evanBucket_withReps b c' hc'
    · obtain ⟨c', hc', heq⟩ := List.mem_map.mp h
      obtain ⟨h1, h2⟩ := Prod.mk.injEq c' "Dave" c rep ▸ heq
      rw [← h1, ← h2]
      exact mem_daveBucket_withReps b c' hc'
  have hrec : AssignmentRecord.mk c.domain c.company rep week ∈ newHistoryRows week b := by
    unfold newHistoryRows
    exact List.mem_map.mpr ⟨(c, rep), hwr, rfl⟩
  refine ⟨hrec, ?_⟩
  have hkp : (withReps b).Pairwise (fun p q => candKey p.1 ≠ candKey q.1) :=
    withReps_key_pairwise b (by rw [hb]; exact top100_key_pairwise parseDate now history l)
  have hpw : (newHistoryRows week b).Pairwise
      (fun r1 r2 => decide (r1.domain = c.domain ∧ r1.company = c.company) = true →
        decide (r2.domain = c.domain ∧ r2.company = c.company) = false) := by
    unfold newHistoryRows
    refine List.pairwise_map.mpr (hkp.imp ?_)
    intro p q hne hp
    simp only [decide_eq_true_eq] at hp
    simp only [decide_eq_false_iff_not]
    intro hq
    refine hne ?_
    unfold candKey
    rw [hp.1, hp.2, hq.1, hq.2]
  have hle := countP_le_one_of_pairwise
    (fun rec => decide (rec.domain = c.domain ∧ rec.company = c.company))
    (newHistoryRows week b) hpw
  have hpos : 0 < (newHistoryRows week b).countP
      (fun rec => decide (rec.domain = c.domain ∧ rec.company = c.company)) :=
    List.countP_pos_iff.mpr ⟨AssignmentRecord.mk c.domain c.company rep week, hrec, by simp⟩
  rw [← List.countP_eq_length_filter]
  omega

/-- Witness for C6: in a two-row batch, the Evan-bucket row `a.com / A`
produces exactly one matching ledger row. -/
theorem emitted_roundtrip_witness :
    AssignmentRecord.mk "a.com" "A" "Evan" "2025-10-10" ∈
        newHistoryRows "2025-10-10" [Cand.mk "a.com" "A" 5, Cand.mk "b.com" "B" 3] ∧
      ((newHistoryRows "2025-10-10" [Cand.mk "a.com" "A" 5, Cand.mk "b.com" "B" 3]).filter
          (fun rec => rec.domain = "a.com" ∧ rec.company = "A")).length = 1 :=
  emitted_roundtrip (fun _ => none) 0 [] "2025-10-10"
    [Cand.mk "a.com" "A" 5, Cand.mk "b.com" "B" 3]
    [Cand.mk "a.com" "A" 5, Cand.mk "b.com" "B" 3] (by decide)
    (Cand.mk "a.com" "A" 5) "Evan" (by decide)

/-! ### Empty canonical domains -/

/-- C9 counterexample: two rows with empty canonical domain and the same
company name DO compare equal for deduplication purposes — the dedup key is
the `(Domain, CompanyName)` pair, so one of the two rows is suppressed. -/
theorem empty_domain_dedup_cex :
    dedupRanked [Cand.mk "" "Acme" 10, Cand.mk "" "Acme" 5] = [Cand.mk "" "Acme" 10] := by
  decide

/-- C9 (amended): empty canonical domains are exempt from the
permanent-exclusion lookup (the prior-domain set drops the empty string, so
an empty-domain candidate always survives `priorFilter`) and from the
rolling 365-day check (`in_12_months` and `domain_in_recent` are `false` on
`""`); deduplication, however, keys on the `(Domain, CompanyName)` pair, so
two empty-domain rows with the same company DO compare equal and collapse to
one row, while empty-domain rows with different companies both survive. -/
theorem empty_domain_amended :
    (∀ rawCells, "" ∉ read_prior_domains rawCells) ∧
      (∀ rawCells (l : List Cand) (c : Cand), c ∈ l → c.domain = "" →
        c ∈ priorFilter (read_prior_domains rawCells) l) ∧
      (∀ parseDate now history,
        in_12_months parseDate now "" history = false ∧
          domain_in_recent parseDate now history "" = false) ∧
      (∀ comp (s1 s2 : Nat),
        (dedupRanked [Cand.mk "" comp s1, Cand.mk "" comp s2]).length = 1) ∧
      (∀ comp1 comp2 (s1 s2 : Nat), comp1 ≠ comp2 →
        (dedupRanked [Cand.mk "" comp1 s1, Cand.mk "" comp2 s2]).length = 2) := by
  have hnp : ∀ rawCells, "" ∉ read_prior_domains rawCells := by
    intro rawCells hmem
    have := (List.mem_filter.mp hmem).2
    simp at this
  refine ⟨hnp, ?_, ?_, ?_, ?_⟩
  · intro rawCells l c hc hdom
    refine List.mem_filter.mpr ⟨hc, ?_⟩
    simp only [decide_eq_true_eq]
    rw [hdom]
    exact hnp rawCells
  · intro parseDate now history
    constructor
    · simp [in_12_months]
    · simp [domain_in_recent]
  · intro comp s1 s2
    unfold dedupRanked sortByScore
    simp only [List.insertionSort, List.orderedInsert]
    split_ifs with h
    · simp [dropDupKeys, candKey]
    · simp [dropDupKeys, candKey]
  · intro comp1 comp2 s1 s2 hne
    unfold dedupRanked sortByScore
    simp only [List.insertionSort, List.orderedInsert]
    split_ifs with h
    · simp [dropDupKeys, candKey, Ne.symm hne]
    · simp [dropDupKeys, candKey, hne]

/-- Witness for C9 (amended): an empty-domain candidate survives the
permanent-exclusion filter built from a concrete legacy dataset, and two
empty-domain rows with different companies both survive deduplication. -/
theorem empty_domain_amended_witness :
    Cand.mk "" "X" 1 ∈
        priorFilter (read_prior_domains ["http://www.a.com", ""]) [Cand.mk "" "X" 1] ∧
      (dedupRanked [Cand.mk "" "A" 7, Cand.mk "" "B" 3]).length = 2 :=
  ⟨empty_domain_amended.2.1 ["http://www.a.com", ""] [Cand.mk "" "X" 1]
      (Cand.mk "" "X" 1) (by decide) rfl,
   empty_domain_amended.2.2.2.2 "A" "B" 7 3 (by decide)⟩

end OutboundLists
